import Mathlib

/-!
Shallow embedding of the catalog engine of the obsidian-clipper-catalog
plugin (src/unnamed/part_000, second component version starting at line
1100, shared with src/src/ClipperCatalog.tsx), together with theorems
settling the frozen claims about it.

JavaScript values appearing in front matter are modelled by `FmValue`
(string, array, boolean); JS truthiness, `Array.isArray`, `typeof x ===
'string'` and strict `=== true` tests are translated case by case.
Machine integers do not occur: the only arithmetic is on list lengths
and timestamps.
-/

/-! JS string primitives, implemented over `List Char` (ASCII case
mapping and whitespace; the sources never depend on the full Unicode
tables) so that every definition evaluates by kernel reduction. -/

/-- JS whitespace as `trim` removes it (ASCII subset). -/
def isJsWs (c : Char) : Bool := c == ' ' || c == '\t' || c == '\n' || c == '\r'

/-- JS `s.trim()`. -/
def jsTrim (s : String) : String :=
  ⟨((s.toList.dropWhile isJsWs).reverse.dropWhile isJsWs).reverse⟩

/-- Split a character list at every occurrence of a separator. -/
def splitChAux (sep : Char) : List Char → List (List Char)
  | [] => [[]]
  | x :: xs =>
    match splitChAux sep xs with
    | [] => [[]]
    | g :: gs => if x == sep then [] :: g :: gs else (x :: g) :: gs

/-- JS `s.split(sep)` for a one-character separator: `""` yields `[""]`,
adjacent separators yield empty segments. -/
def jsSplit (s : String) (sep : Char) : List String :=
  (splitChAux sep s.toList).map fun cs => ⟨cs⟩

/-- JS `s.toLowerCase()`. -/
def jsToLower (s : String) : String := ⟨s.toList.map Char.toLower⟩

/-- JS `s.startsWith(c)` for a one-character pattern. -/
def startsWithCh (s : String) (c : Char) : Bool :=
  match s.toList with
  | [] => false
  | x :: _ => x == c

/-- JS `s.endsWith(c)` for a one-character pattern. -/
def endsWithCh (s : String) (c : Char) : Bool :=
  match s.toList.getLast? with
  | some x => x == c
  | none => false

/-- JS `s.slice(1)`: drop the first character. -/
def sliceFrom1 (s : String) : String := ⟨s.toList.tail⟩

/-- JS `s.slice(0, -1)` / the effect of `replace(/\/$/, '')` once the
final character is known to match: drop the last character. -/
def dropLastCh (s : String) : String := ⟨s.toList.dropLast⟩

/-- A front-matter value as the metadata cache delivers it: a scalar
string, an array of values, or a boolean. -/
inductive FmValue where
  | str (s : String)
  | arr (xs : List FmValue)
  | boolean (b : Bool)

/-- JS truthiness of a front-matter value: the empty string and `false`
are falsy, arrays are always truthy. -/
def truthy : FmValue → Bool
  | .str s => s != ""
  | .arr _ => true
  | .boolean b => b

/-- A parsed front-matter record: key/value pairs (JS object, so keys are
unique; lookup finds the first matching key). -/
abbrev Frontmatter := List (String × FmValue)

/-- `frontmatter[k]`: `none` models JS `undefined`. -/
def lookupFm : Frontmatter → String → Option FmValue
  | [], _ => none
  | (k', v) :: rest, k => if k' == k then some v else lookupFm rest k

/-- `sourcePropertyName.split(',').map(name => name.trim()).filter(Boolean)`
(part_000 lines 1311-1314). -/
def parsePropertyNames (s : String) : List String :=
  ((jsSplit s ',').map jsTrim).filter (· != "")

/-- A value stored in the `urls` object: a scalar kept as-is, or the
filtered string array. -/
inductive UrlEntry where
  | scalar (v : FmValue)
  | list (ss : List String)

/-- JS object assignment `obj[k] = v`: overwrite in place if the key
exists, append otherwise. -/
def objSet (obj : List (String × UrlEntry)) (k : String) (v : UrlEntry) :
    List (String × UrlEntry) :=
  match obj with
  | [] => [(k, v)]
  | (k', v') :: rest => if k' == k then (k', v) :: rest else (k', v') :: objSet rest k v

/-- `value.filter(item => typeof item === 'string' && item.trim() !== '')`
(part_000 line 1333), keeping the surviving strings. -/
def filterUrlItems (xs : List FmValue) : List String :=
  xs.filterMap fun item =>
    match item with
    | .str s => if jsTrim s != "" then some s else none
    | _ => none

/-- One iteration of the URL-collection loop of `loadArticles` (part_000
lines 1328-1339): a truthy array value is filtered and stored only if
non-empty, any other truthy value is stored unchanged. -/
def collectStep (fm : Frontmatter) (urls : List (String × UrlEntry))
    (propName : String) : List (String × UrlEntry) :=
  match lookupFm fm propName with
  | some value =>
    if truthy value then
      match value with
      | .arr xs =>
        let filteredValue := filterUrlItems xs
        if filteredValue.length > 0 then objSet urls propName (.list filteredValue)
        else urls
      | _ => objSet urls propName (.scalar value)
    else urls
  | none => urls

/-- The URL-collection loop of `loadArticles` (part_000 lines 1327-1340),
starting from the empty object. -/
def collectUrls (fm : Frontmatter) (propertyNames : List String) :
    List (String × UrlEntry) :=
  propertyNames.foldl (collectStep fm) []

/-- `tag.startsWith('#') ? tag.slice(1) : tag`. -/
def stripHash (s : String) : String :=
  if startsWithCh s '#' then sliceFrom1 s else s

/-- Reads an array of front-matter values as an array of strings; `none`
models the `TypeError` the JS code throws on a non-string element. -/
def decodeStrings : List FmValue → Option (List String)
  | [] => some []
  | .str s :: rest => (decodeStrings rest).map (s :: ·)
  | _ :: _ => none

/-- `processFrontmatterTags` (part_000 lines 1165-1175). The input is the
(possibly absent) `frontmatter.tags` value; the result is `none` when the
JS code would throw (a non-string array element has no `.startsWith`, a
`true` scalar has no `.split`), which the per-file `try` of `loadArticles`
turns into skipping the file. -/
def processFrontmatterTags (includeFrontmatterTags : Bool)
    (tags : Option FmValue) : Option (List String) :=
  match tags with
  | none => some []
  | some v =>
    if !includeFrontmatterTags || !truthy v then some []
    else
      match v with
      | .str s =>
        some (((((jsSplit s ',').map jsTrim)).map stripHash).filter (· != ""))
      | .arr xs =>
        (decodeStrings xs).map fun ss => ((ss.map stripHash).filter (· != ""))
      | .boolean _ => none

/-- One entry of `metadata.tags`: a bare string or an object exposing a
`tag` field (the shapes the metadata cache delivers). -/
inductive TagDescriptor where
  | str (s : String)
  | obj (tag : String)

/-- `processContentTags` (part_000 lines 1177-1183). -/
def processContentTags (tags : Option (List TagDescriptor)) : List String :=
  match tags with
  | none => []
  | some ts =>
    (((ts.map fun d => match d with | .str s => s | .obj t => t).map stripHash).filter
      (· != ""))

/-- Helper for `dedupFirst`: skip elements already seen. -/
def dedupFirstAux (seen : List String) : List String → List String
  | [] => []
  | x :: xs =>
    if seen.contains x then dedupFirstAux seen xs
    else x :: dedupFirstAux (x :: seen) xs

/-- `[...new Set(l)]`: deduplicate keeping the first occurrence of each
element, preserving order. -/
def dedupFirst (l : List String) : List String := dedupFirstAux [] l

/-- `s.replace(/\\/g, '/')`. -/
def slashNormalize (s : String) : String :=
  ⟨s.toList.map fun c => if c == '\\' then '/' else c⟩

/-- `s.replace(/\/$/, '')`: strip one trailing slash if present. -/
def stripOneTrailingSlash (s : String) : String :=
  if endsWithCh s '/' then dropLastCh s else s

/-- The segment-comparison loop of `isPathIgnored` (part_000 lines
1291-1295): case-insensitive equality of each rule segment with the
corresponding path segment. -/
def segmentsEq : List String → List String → Bool
  | [], _ => true
  | _ :: _, [] => false
  | d :: ds, p :: ps => jsToLower d == jsToLower p && segmentsEq ds ps

/-- The per-rule body of `isPathIgnored` (part_000 lines 1279-1299). -/
def ruleMatches (dir filePath : String) : Bool :=
  let normalizedDir := stripOneTrailingSlash (slashNormalize dir)
  let normalizedPath := slashNormalize filePath
  let dirParts := jsSplit normalizedDir '/'
  let pathParts := jsSplit normalizedPath '/'
  if pathParts.length < dirParts.length then false
  else
    segmentsEq dirParts pathParts &&
      (dirParts.length == pathParts.length - 1 || dirParts.length == pathParts.length)

/-- `isPathIgnored` (part_000 lines 1277-1301, identical copy at
ClipperCatalog.tsx lines 106-130): some ignored directory matches. -/
def isPathIgnored (ignoredDirectories : List String) (filePath : String) : Bool :=
  ignoredDirectories.any fun dir => ruleMatches dir filePath

/-- The spec's description of one rule matching a path: segment-wise
case-insensitive equality on the path's leading segments, and the path's
segment count equals the rule's or exceeds it by exactly one. -/
def ruleMatchesSpec (dir filePath : String) : Prop :=
  let dirParts := jsSplit (stripOneTrailingSlash (slashNormalize dir)) '/'
  let pathParts := jsSplit (slashNormalize filePath) '/'
  ((pathParts.map jsToLower).take dirParts.length = dirParts.map jsToLower)
    ∧ (pathParts.length = dirParts.length ∨ pathParts.length = dirParts.length + 1)

/-- JS strict equality `value === true`. -/
def isTrueVal : Option FmValue → Bool
  | some (.boolean true) => true
  | _ => false

/-- The `Article` record (part_000 lines 1100-1111) as `loadArticles`
builds it. -/
structure Article where
  title : String
  urls : List (String × UrlEntry)
  path : String
  date : Nat
  tags : List String
  frontmatterTags : List String
  contentTags : List String
  basename : String
  content : String
  read : Bool

/-- The plugin settings the engine reads (part_001 lines 5-14 /
DEFAULT_SETTINGS). -/
structure Settings where
  sourcePropertyName : String
  readPropertyName : String
  includeFrontmatterTags : Bool
  ignoredDirectories : List String

/-- One vault markdown file together with its metadata-cache entry:
`file.basename`, `file.path`, `file.parent?.path || ''`,
`file.stat.ctime`, `metadata?.frontmatter`, `metadata.tags`, and the
content `app.vault.read(file)` returns. -/
structure VaultFile where
  basename : String
  path : String
  parentPath : String
  ctime : Nat
  frontmatter : Option Frontmatter
  metadataTags : Option (List TagDescriptor)
  content : String

/-- The per-file body of `loadArticles` (part_000 lines 1315-1362):
`none` when the file yields no record (path ignored, no front matter,
empty `urls`, or a per-file exception caught by the inner `try`). -/
def buildArticle (s : Settings) (f : VaultFile) : Option Article :=
  if isPathIgnored s.ignoredDirectories f.parentPath then none
  else
    match f.frontmatter with
    | none => none
    | some fm =>
      let urls := collectUrls fm (parsePropertyNames s.sourcePropertyName)
      let read := isTrueVal (lookupFm fm s.readPropertyName)
      if urls.isEmpty then none
      else
        match processFrontmatterTags s.includeFrontmatterTags (lookupFm fm "tags") with
        | none => none
        | some frontmatterTags =>
          let contentTags := processContentTags f.metadataTags
          let allTags := dedupFirst (frontmatterTags ++ contentTags)
          some {
            title := f.basename
            urls := urls
            path := f.path
            date := f.ctime
            tags := allTags
            frontmatterTags := frontmatterTags
            contentTags := contentTags
            basename := f.basename
            content := f.content
            read := read }

/-- `loadArticles` (part_000 lines 1303-1374): one refresh pass over the
vault's markdown files. -/
def loadArticles (s : Settings) (files : List VaultFile) : List Article :=
  files.filterMap (buildArticle s)

/-- Boolean list-prefix test on characters. -/
def isPrefixB : List Char → List Char → Bool
  | [], _ => true
  | _ :: _, [] => false
  | a :: as, b :: bs => a == b && isPrefixB as bs

/-- Boolean infix test on characters: does `pat` occur inside `l`? -/
def infixB (pat : List Char) : List Char → Bool
  | [] => pat.isEmpty
  | l@(_ :: rest) => isPrefixB pat l || infixB pat rest

/-- JS `s.includes(pat)`: `pat` is a substring of `s`. -/
def containsSub (s pat : String) : Bool := infixB pat.toList s.toList

/-- The search predicate of `filteredArticles` (part_000 lines 1474-1481):
case-insensitive substring match on the title or on any tag, or, when the
term starts with `#`, exact case-insensitive match on any tag. -/
def matchesSearch (searchTerm : String) (a : Article) : Bool :=
  containsSub (jsToLower a.title) (jsToLower searchTerm)
    || a.tags.any (fun tag => containsSub (jsToLower tag) (jsToLower searchTerm))
    || (startsWithCh searchTerm '#'
        && a.tags.any (fun tag => jsToLower tag == jsToLower (sliceFrom1 searchTerm)))

/-- Sort direction (`SortConfig.direction`). -/
inductive Direction where
  | asc
  | desc
deriving DecidableEq

/-- The sort keys whose comparators the embedding covers. The remaining
keys of `SortConfig` compare via `String.localeCompare`, whose result
depends on the host locale and is outside this embedding; no claim
concerns them. -/
inductive SortKey where
  | date
  | read
deriving DecidableEq

/-- The comparator of `sortedArticles` (part_000 lines 1444-1457) for the
`date` and `read` keys. -/
def articleCmp (key : SortKey) (dir : Direction) (a b : Article) : Int :=
  match key with
  | .date =>
    match dir with
    | .asc => (a.date : Int) - (b.date : Int)
    | .desc => (b.date : Int) - (a.date : Int)
  | .read =>
    match dir with
    | .asc => if a.read == b.read then 0 else if a.read then -1 else 1
    | .desc => if a.read == b.read then 0 else if a.read then 1 else -1

/-- Stable insertion into a sorted list: `x` goes before the first element
not strictly below it, hence after every earlier-listed equal element. -/
def insertC (c : Article → Article → Int) (x : Article) : List Article → List Article
  | [] => [x]
  | y :: ys => if c y x < 0 then y :: insertC c x ys else x :: y :: ys

/-- Stable sort by comparator `c`, modelling ECMAScript
`Array.prototype.sort` (stable per the language spec) for consistent
comparators. -/
def sortC (c : Article → Article → Int) : List Article → List Article
  | [] => []
  | x :: xs => insertC c x (sortC c xs)

/-- `sortedArticles` (part_000 line 1444): `[...articles].sort(cmp)`. -/
def sortedArticles (key : SortKey) (dir : Direction) (articles : List Article) :
    List Article :=
  sortC (articleCmp key dir) articles

/-- The filter body of `filteredArticles` (part_000 lines 1469-1481):
read-state toggles first, then the search predicate. -/
def passesFilters (hideCompleted showOnlyCompleted : Bool) (searchTerm : String)
    (a : Article) : Bool :=
  if hideCompleted && a.read then false
  else if showOnlyCompleted && !a.read then false
  else matchesSearch searchTerm a

/-- `filteredArticles` (part_000 lines 1468-1482). -/
def filteredArticles (key : SortKey) (dir : Direction)
    (hideCompleted showOnlyCompleted : Bool) (searchTerm : String)
    (articles : List Article) : List Article :=
  (sortedArticles key dir articles).filter
    (passesFilters hideCompleted showOnlyCompleted searchTerm)

/-- The two read-state toggle flags (part_000 lines 1195-1196). -/
structure ToggleState where
  hideCompleted : Bool
  showOnlyCompleted : Bool
deriving DecidableEq

/-- Initial state: both toggles off. -/
def toggleInit : ToggleState := { hideCompleted := false, showOnlyCompleted := false }

/-- A click on one of the two toggle controls. -/
inductive ToggleOp where
  | hide
  | showOnly
deriving DecidableEq

/-- The two onClick handlers of `renderAdvancedSettingsHeader` (part_000
lines 1626-1629 and 1647-1650): flip one flag, clear the other if set. -/
def applyToggle (s : ToggleState) : ToggleOp → ToggleState
  | .hide =>
    { hideCompleted := !s.hideCompleted
      showOnlyCompleted := if s.showOnlyCompleted then false else s.showOnlyCompleted }
  | .showOnly =>
    { hideCompleted := if s.hideCompleted then false else s.hideCompleted
      showOnlyCompleted := !s.showOnlyCompleted }

/-- A sequence of toggle clicks applied from a state. -/
def applyToggles (s : ToggleState) (ops : List ToggleOp) : ToggleState :=
  ops.foldl applyToggle s

/-- A document as the read-state writer sees it: its full text and its
cached front-matter block (absent when the file has none). -/
structure Doc where
  frontmatter : Option Frontmatter
  content : String

/-- Modelled from the spec: Obsidian's `fileManager.processFrontMatter`
mutation `frontmatter[key] = value` — the host API is not part of src/;
per its interface it updates the named property in place (or appends it)
and leaves every other front-matter field and the body unchanged. -/
def setFmKey (fm : Frontmatter) (k : String) (v : FmValue) : Frontmatter :=
  match fm with
  | [] => [(k, v)]
  | (k', v') :: rest => if k' == k then (k', v) :: rest else (k', v') :: setFmKey rest k v

/-- The write step of the checkbox onChange handler (part_000 lines
1900-1908): without front matter, prepend a synthesized block holding
only the read property to the existing content; otherwise set the read
property via `processFrontMatter`. -/
def applyReadWrite (readPropertyName : String) (isChecked : Bool) (doc : Doc) : Doc :=
  match doc.frontmatter with
  | none =>
    { doc with
      content := "---\n" ++ readPropertyName ++ ": "
        ++ (if isChecked then "true" else "false") ++ "\n---\n" ++ doc.content }
  | some fm =>
    { doc with frontmatter := some (setFmKey fm readPropertyName (.boolean isChecked)) }

/-- The optimistic in-memory update (part_000 lines 1896-1898). -/
def optimisticUpdate (path : String) (isChecked : Bool) (articles : List Article) :
    List Article :=
  articles.map fun a => if a.path == path then { a with read := isChecked } else a

/-- The catch-block revert (part_000 lines 1911-1914): set the record's
read flag to the negation of the attempted value. -/
def revertUpdate (path : String) (isChecked : Bool) (articles : List Article) :
    List Article :=
  articles.map fun a => if a.path == path then { a with read := !isChecked } else a

/-- The checkbox onChange handler (part_000 lines 1886-1918): optimistic
update, then the write; when the write throws (`writeFails`), the catch
block reverts the in-memory flag and the document is unchanged. -/
def toggleRead (readPropertyName path : String) (isChecked : Bool)
    (articles : List Article) (doc : Doc) (writeFails : Bool) :
    List Article × Doc :=
  let optimistic := optimisticUpdate path isChecked articles
  if writeFails then (revertUpdate path isChecked optimistic, doc)
  else (optimistic, applyReadWrite readPropertyName isChecked doc)

/-- The spec-side condition under which `loadArticles` keeps a configured
property: its value is truthy, and an array value retains at least one
string entry that is non-blank after trimming. -/
def keepsProp (fm : Frontmatter) (p : String) : Bool :=
  match lookupFm fm p with
  | some v =>
    truthy v &&
      (match v with
       | .arr xs => !(filterUrlItems xs).isEmpty
       | _ => true)
  | none => false

/-! Helper lemmas. -/

theorem infixB_nil (l : List Char) : infixB [] l = true := by
  cases l <;> simp [infixB, isPrefixB, List.isEmpty]

theorem map_self_of {α : Type} (l : List α) (f : α → α) (h : ∀ x ∈ l, f x = x) :
    l.map f = l := by
  induction l with
  | nil => rfl
  | cons x xs ih =>
    simp only [List.map_cons, h x (List.mem_cons_self x xs)]
    exact congrArg (x :: ·) (ih fun y hy => h y (List.mem_cons_of_mem x hy))

theorem decodeStrings_map_str (ts : List String) :
    decodeStrings (ts.map FmValue.str) = some ts := by
  induction ts with
  | nil => rfl
  | cons t ts ih => simp [decodeStrings, ih]

theorem insertC_append (c : Article → Article → Int) (x : Article)
    (l1 l2 : List Article) (h : ∀ y ∈ l1, c y x < 0) :
    insertC c x (l1 ++ l2) = l1 ++ insertC c x l2 := by
  induction l1 with
  | nil => rfl
  | cons y l1 ih =>
    simp only [List.cons_append, insertC, if_pos (h y (List.mem_cons_self y l1))]
    exact congrArg (y :: ·) (ih fun z hz => h z (List.mem_cons_of_mem y hz))

/-- The comparator `(a, b) => (k a === k b) ? 0 : k a ? -1 : 1` for a
boolean key. -/
def boolCmp (k : Article → Bool) (a b : Article) : Int :=
  if k a == k b then 0 else if k a then -1 else 1

theorem sortC_boolCmp (k : Article → Bool) (l : List Article) :
    sortC (boolCmp k) l = l.filter k ++ l.filter (fun a => !k a) := by
  induction l with
  | nil => rfl
  | cons x xs ih =>
    show insertC (boolCmp k) x (sortC (boolCmp k) xs) = _
    rw [ih]
    cases hk : k x with
    | true =>
      have hstep :
          insertC (boolCmp k) x (xs.filter k ++ xs.filter (fun a => !k a))
            = x :: (xs.filter k ++ xs.filter (fun a => !k a)) := by
        cases hT : xs.filter k with
        | nil =>
          cases hF : xs.filter (fun a => !k a) with
          | nil => simp [hT, hF, insertC]
          | cons z F =>
            have hzmem : z ∈ xs.filter (fun a => !k a) := by
              rw [hF]; exact List.mem_cons_self z F
            have hz : (!k z) = true := (List.mem_filter.mp hzmem).2
            have hkz : k z = false := by simpa using hz
            have hcz : boolCmp k z x = 1 := by simp [boolCmp, hkz, hk]
            simp [hT, hF, insertC, hcz]
        | cons y T =>
          have hymem : y ∈ xs.filter k := by
            rw [hT]; exact List.mem_cons_self y T
          have hy : k y = true := (List.mem_filter.mp hymem).2
          have hcy : boolCmp k y x = 0 := by simp [boolCmp, hy, hk]
          simp [hT, insertC, hcy]
      rw [hstep]
      simp [List.filter_cons, hk]
    | false =>
      have hstep :
          insertC (boolCmp k) x (xs.filter k ++ xs.filter (fun a => !k a))
            = xs.filter k ++ (x :: xs.filter (fun a => !k a)) := by
        rw [insertC_append]
        · congr 1
          cases hF : xs.filter (fun a => !k a) with
          | nil => simp [insertC]
          | cons z F =>
            have hzmem : z ∈ xs.filter (fun a => !k a) := by
              rw [hF]; exact List.mem_cons_self z F
            have hz : (!k z) = true := (List.mem_filter.mp hzmem).2
            have hkz : k z = false := by simpa using hz
            have hcz : boolCmp k z x = 0 := by simp [boolCmp, hkz, hk]
            simp [insertC, hcz]
        · intro y hy
          have hky : k y = true := (List.mem_filter.mp hy).2
          have hcy : boolCmp k y x = -1 := by simp [boolCmp, hky, hk]
          rw [hcy]
          decide
      rw [hstep]
      simp [List.filter_cons, hk]

theorem applyToggle_both_false (s : ToggleState) (op : ToggleOp) :
    ((applyToggle s op).hideCompleted && (applyToggle s op).showOnlyCompleted) = false := by
  cases op <;> cases hs : s.showOnlyCompleted <;> cases hh : s.hideCompleted <;>
    simp [applyToggle, hs, hh]

theorem applyToggles_both_false (ops : List ToggleOp) (s : ToggleState)
    (h : (s.hideCompleted && s.showOnlyCompleted) = false) :
    ((applyToggles s ops).hideCompleted && (applyToggles s ops).showOnlyCompleted)
      = false := by
  induction ops generalizing s with
  | nil => exact h
  | cons op rest ih =>
    show ((applyToggles (applyToggle s op) rest).hideCompleted && _) = false
    exact ih (applyToggle s op) (applyToggle_both_false s op)

/-- Claim C7: Sorting by the `read` key ascending places all `read=true`
records before all `read=false` records, descending places `read=false`
first, and records with equal `read` values keep their relative input
order: the result is exactly the stable partition of the input list by
the `read` flag. -/
theorem claim_c7 (articles : List Article) :
    sortedArticles .read .asc articles
        = articles.filter (fun a => a.read) ++ articles.filter (fun a => !a.read)
      ∧ sortedArticles .read .desc articles
        = articles.filter (fun a => !a.read) ++ articles.filter (fun a => a.read) := by
  constructor
  · have hc : articleCmp .read .asc = boolCmp (fun a => a.read) := by
      funext a b; rfl
    show sortC (articleCmp .read .asc) articles = _
    rw [hc, sortC_boolCmp]
  · have hc : articleCmp .read .desc = boolCmp (fun a => !a.read) := by
      funext a b
      show (if a.read == b.read then 0 else if a.read then 1 else -1 : Int) = _
      cases ha : a.read <;> cases hb : b.read <;> simp [boolCmp, ha, hb]
    show sortC (articleCmp .read .desc) articles = _
    rw [hc, sortC_boolCmp]
    congr 1
    exact List.filter_congr fun a _ => by cases a.read <;> rfl

/-- Claim C10: With the empty search term every record passes the search
predicate, so the displayed list is the sorted catalog restricted only by
the two read-state toggles. -/
theorem claim_c10 (key : SortKey) (dir : Direction) (hideCompleted showOnlyCompleted : Bool)
    (articles : List Article) :
    (∀ a : Article, matchesSearch "" a = true)
      ∧ filteredArticles key dir hideCompleted showOnlyCompleted "" articles
        = (sortedArticles key dir articles).filter
            (fun a => !(hideCompleted && a.read) && !(showOnlyCompleted && !a.read)) := by
  have hsearch : ∀ a : Article, matchesSearch "" a = true := by
    intro a
    have h0 : containsSub (jsToLower a.title) (jsToLower "") = true := infixB_nil _
    simp [matchesSearch, h0]
  refine ⟨hsearch, ?_⟩
  show List.filter _ _ = _
  exact List.filter_congr fun a _ => by
    cases h1 : hideCompleted && a.read <;> cases h2 : showOnlyCompleted && !a.read <;>
      simp [passesFilters, h1, h2, hsearch a]

/-- Claim C6: The two read-state toggles are never simultaneously active
after any click sequence from the initial state, and a record shown while
`hideCompleted` is on has `read=false`, while `showOnlyCompleted` is on
has `read=true`, and always passes the search predicate (the search
composes conjunctively with the read-state filter). -/
theorem claim_c6 (ops : List ToggleOp) (key : SortKey) (dir : Direction)
    (hideCompleted showOnlyCompleted : Bool) (searchTerm : String)
    (articles : List Article) (a : Article)
    (ha : a ∈ filteredArticles key dir hideCompleted showOnlyCompleted searchTerm articles) :
    ((applyToggles toggleInit ops).hideCompleted
        && (applyToggles toggleInit ops).showOnlyCompleted) = false
      ∧ (hideCompleted = true → a.read = false)
      ∧ (showOnlyCompleted = true → a.read = true)
      ∧ matchesSearch searchTerm a = true := by
  have hp : passesFilters hideCompleted showOnlyCompleted searchTerm a = true :=
    (List.mem_filter.mp ha).2
  refine ⟨applyToggles_both_false ops toggleInit rfl, ?_⟩
  cases h1 : hideCompleted && a.read with
  | true => simp [passesFilters, h1] at hp
  | false =>
    cases h2 : showOnlyCompleted && !a.read with
    | true => simp [passesFilters, h1, h2] at hp
    | false =>
      have hm : matchesSearch searchTerm a = true := by
        simpa [passesFilters, h1, h2] using hp
      refine ⟨?_, ?_, hm⟩
      · intro hh
        rw [hh] at h1
        simpa using h1
      · intro hs
        rw [hs] at h2
        simpa using h2

theorem map_str_proj (ts : List String) :
    (ts.map TagDescriptor.str).map
      (fun d => match d with | .str s => s | .obj t => t) = ts := by
  induction ts with
  | nil => rfl
  | cons t ts ih => simpa using ih

/-- Claim C9: Tag normalization is idempotent: an already-normalized tag
list (no leading `#`, trimmed, no empties, no duplicates) is returned
unchanged both by the front-matter tag normalizer and by the content tag
normalizer. -/
theorem claim_c9 (ts : List String)
    (h1 : ∀ t ∈ ts, startsWithCh t '#' = false)
    (h2 : ∀ t ∈ ts, t ≠ "")
    (h3 : ∀ t ∈ ts, jsTrim t = t)
    (h4 : ts.Nodup) :
    processFrontmatterTags true (some (.arr (ts.map FmValue.str))) = some ts
      ∧ processContentTags (some (ts.map TagDescriptor.str)) = ts := by
  have hmap : ts.map stripHash = ts :=
    map_self_of ts stripHash fun t ht => by simp [stripHash, h1 t ht]
  have hfilter : ts.filter (· != "") = ts :=
    List.filter_eq_self.mpr fun t ht => by simpa using h2 t ht
  constructor
  · show ((decodeStrings (ts.map FmValue.str)).map
        fun ss => ((ss.map stripHash).filter (· != ""))) = some ts
    rw [decodeStrings_map_str]
    simp only [Option.map_some']
    rw [hmap, hfilter]
  · show (((ts.map TagDescriptor.str).map
        fun d => match d with | .str s => s | .obj t => t).map stripHash).filter
          (· != "") = ts
    rw [map_str_proj, hmap, hfilter]

/-- Concrete instantiation of `claim_c9` at the normalized list
`["foo", "bar"]`. -/
theorem claim_c9_witness :
    ((∀ t ∈ (["foo", "bar"] : List String), startsWithCh t '#' = false)
        ∧ (["foo", "bar"] : List String).Nodup)
      ∧ processFrontmatterTags true
          (some (.arr ((["foo", "bar"] : List String).map FmValue.str)))
          = some ["foo", "bar"]
      ∧ processContentTags
          (some ((["foo", "bar"] : List String).map TagDescriptor.str))
          = ["foo", "bar"] :=
  ⟨⟨by decide, by decide⟩,
    claim_c9 ["foo", "bar"] (by decide) (by decide) (by decide) (by decide)⟩

/-- A concrete unread article used by witnesses. -/
def c6Article : Article :=
  { title := "t", urls := [("source", .scalar (.str "https://a.com"))], path := "p"
    date := 0, tags := [], frontmatterTags := [], contentTags := []
    basename := "t", content := "", read := false }

/-- Concrete instantiation of `claim_c6`: one click on "hide read", and
the unread article `c6Article` displayed under `hideCompleted = true`. -/
theorem claim_c6_witness :
    c6Article ∈ filteredArticles SortKey.date Direction.asc true false "" [c6Article]
      ∧ (((applyToggles toggleInit [ToggleOp.hide]).hideCompleted
          && (applyToggles toggleInit [ToggleOp.hide]).showOnlyCompleted) = false
        ∧ (true = true → c6Article.read = false)
        ∧ (false = true → c6Article.read = true)
        ∧ matchesSearch "" c6Article = true) := by
  have hmem :
      c6Article ∈ filteredArticles SortKey.date Direction.asc true false "" [c6Article] := by
    simp only [show filteredArticles SortKey.date Direction.asc true false "" [c6Article]
        = [c6Article] from rfl]
    exact List.mem_singleton_self _
  exact ⟨hmem,
    claim_c6 [ToggleOp.hide] SortKey.date Direction.asc true false "" [c6Article]
      c6Article hmem⟩

/-- Claim C3: For a configured property whose front-matter value is truthy:
an array value is filtered to its non-blank string entries and the
property is included only when at least one survives; any other (scalar)
value is stored in the `urls` mapping unchanged, with no URL validation. -/
theorem claim_c3 (fm : Frontmatter) (p : String) (v : FmValue)
    (h1 : lookupFm fm p = some v) (h2 : truthy v = true) :
    (∀ xs, v = .arr xs →
        (filterUrlItems xs ≠ [] →
          collectUrls fm [p] = [(p, .list (filterUrlItems xs))])
        ∧ (filterUrlItems xs = [] → collectUrls fm [p] = []))
      ∧ ((∀ xs, v ≠ .arr xs) → collectUrls fm [p] = [(p, .scalar v)]) := by
  constructor
  · rintro xs rfl
    constructor
    · intro hne
      have hlen : 0 < (filterUrlItems xs).length := List.length_pos.mpr hne
      simp [collectUrls, collectStep, h1, h2, hlen, objSet]
    · intro hnil
      simp [collectUrls, collectStep, h1, h2, hnil]
  · intro hnot
    cases v with
    | str s => simp [collectUrls, collectStep, h1, h2, objSet]
    | arr xs => exact absurd rfl (hnot xs)
    | boolean b => simp [collectUrls, collectStep, h1, h2, objSet]

/-- Concrete instantiation of `claim_c3`, echoing the spec scenario
`{url: ["https://a.com", "", "https://b.com"], link: "not a url"}`. -/
theorem claim_c3_witness :
    (lookupFm [("url", FmValue.arr [.str "https://a.com", .str "", .str "https://b.com"])]
          "url" = some (.arr [.str "https://a.com", .str "", .str "https://b.com"])
        ∧ collectUrls
            [("url", FmValue.arr [.str "https://a.com", .str "", .str "https://b.com"])]
            ["url"]
          = [("url", .list ["https://a.com", "https://b.com"])])
      ∧ collectUrls [("link", FmValue.str "not a url")] ["link"]
          = [("link", .scalar (.str "not a url"))] := by
  refine ⟨⟨rfl, ?_⟩, ?_⟩
  · have h := (claim_c3
        [("url", FmValue.arr [.str "https://a.com", .str "", .str "https://b.com"])]
        "url" (.arr [.str "https://a.com", .str "", .str "https://b.com"])
        rfl (by decide)).1
        [.str "https://a.com", .str "", .str "https://b.com"] rfl
    have h2 := h.1 (by decide)
    simpa using h2
  · have h := (claim_c3 [("link", FmValue.str "not a url")] "link"
        (.str "not a url") rfl (by decide)).2
        (by intro xs hxs; exact FmValue.noConfusion hxs)
    simpa using h

theorem dedupFirstAux_spec (l seen : List String) :
    (dedupFirstAux seen l).Nodup ∧ ∀ y ∈ dedupFirstAux seen l, y ∉ seen := by
  induction l generalizing seen with
  | nil => exact ⟨List.nodup_nil, by intro y hy; cases hy⟩
  | cons x xs ih =>
    by_cases h : x ∈ seen
    · rw [show dedupFirstAux seen (x :: xs) = dedupFirstAux seen xs by
        simp [dedupFirstAux, h]]
      exact ih seen
    · rw [show dedupFirstAux seen (x :: xs) = x :: dedupFirstAux (x :: seen) xs by
        simp [dedupFirstAux, h]]
      have ihx := ih (x :: seen)
      refine ⟨List.nodup_cons.mpr ⟨?_, ihx.1⟩, ?_⟩
      · intro hx
        exact ihx.2 x hx (List.mem_cons_self x seen)
      · intro y hy
        rcases List.mem_cons.mp hy with rfl | hy'
        · exact h
        · exact fun hys => ihx.2 y hy' (List.mem_cons_of_mem x hys)

theorem dedupFirst_nodup (l : List String) : (dedupFirst l).Nodup :=
  (dedupFirstAux_spec l []).1

/-- Claim C4, counterexample: on the tags array `["a", "a", " b"]` the
normalizer returns `["a", "a", " b"]` itself — the duplicate `"a"` is not
removed and `" b"` is not trimmed, refuting the claimed deduplication and
trimming. -/
theorem claim_c4_counterexample :
    processFrontmatterTags true (some (.arr [FmValue.str "a", FmValue.str "a",
        FmValue.str " b"])) = some ["a", "a", " b"]
      ∧ ¬(["a", "a", " b"] : List String).Nodup
      ∧ jsTrim " b" ≠ " b" := by
  refine ⟨by decide, ?_, by decide⟩
  intro h
  exact absurd (List.nodup_cons.mp h).1 (by simp)

/-- Claim C4, amended: The front-matter tag normalizer strips one leading
`#` from each tag and drops empty strings; entries of an array value are
*not* trimmed, entries of a comma-separated scalar are trimmed before
stripping; the result keeps duplicates (deduplication happens only when
`allTags` is formed, and that union is duplicate-free). -/
theorem claim_c4_amended (ss : List String) (s : String) (l1 l2 : List String) :
    processFrontmatterTags true (some (.arr (ss.map FmValue.str)))
        = some ((ss.map stripHash).filter (· != ""))
      ∧ processFrontmatterTags true (some (.str s))
        = some ((((jsSplit s ',').map jsTrim).map stripHash).filter (· != ""))
      ∧ (dedupFirst (l1 ++ l2)).Nodup := by
  refine ⟨?_, ?_, dedupFirst_nodup _⟩
  · show ((decodeStrings (ss.map FmValue.str)).map
        fun ts => ((ts.map stripHash).filter (· != ""))) = _
    rw [decodeStrings_map_str]
    rfl
  · by_cases hs : s = ""
    · subst hs
      decide
    · have hts : truthy (.str s) = true := by simp [truthy, hs]
      simp [processFrontmatterTags, hts]

/-- A record whose title contains the search term `#foo` but that has no
tags at all. -/
def c5Article : Article :=
  { title := "see #foo", urls := [("source", .scalar (.str "https://a.com"))]
    path := "p5", date := 0, tags := [], frontmatterTags := [], contentTags := []
    basename := "n", content := "", read := false }

/-- Claim C5, counterexample: The search filter with term `"#foo"` accepts
`c5Article`, whose title contains `#foo` as a substring, although it has
no tag equal to `foo` (it has no tags at all) — so the filter does not
accept *exactly* the records having tag `foo`. -/
theorem claim_c5_counterexample :
    matchesSearch "#foo" c5Article = true
      ∧ c5Article.tags.any (fun tag => jsToLower tag == jsToLower "foo") = false := by
  decide

/-- Claim C5, amended: For a search term starting with `#`, a record on
which both substring branches fail (the term does not occur in the title
nor inside any tag, case-insensitively) is accepted exactly when some tag
is case-insensitively equal to the name after the `#`; in particular a
tag merely containing that name as a proper substring (like `foobar` for
`#foo`) does not match. -/
theorem claim_c5_amended (searchTerm : String) (a : Article)
    (h0 : startsWithCh searchTerm '#' = true)
    (h1 : containsSub (jsToLower a.title) (jsToLower searchTerm) = false)
    (h2 : ∀ tag ∈ a.tags, containsSub (jsToLower tag) (jsToLower searchTerm) = false) :
    matchesSearch searchTerm a
      = a.tags.any (fun tag => jsToLower tag == jsToLower (sliceFrom1 searchTerm)) := by
  have htags :
      a.tags.any (fun tag => containsSub (jsToLower tag) (jsToLower searchTerm)) = false := by
    rw [List.any_eq_false]
    intro tag htag
    simp [h2 tag htag]
  simp [matchesSearch, h0, h1, htags]

/-- A record with tags `["foo", "foobar"]` and a title not containing the
search term. -/
def c5WitnessArticle : Article :=
  { title := "bar", urls := [("source", .scalar (.str "https://a.com"))]
    path := "p5w", date := 0, tags := ["foo", "foobar"], frontmatterTags := ["foo", "foobar"]
    contentTags := [], basename := "n", content := "", read := false }

/-- Concrete instantiation of `claim_c5_amended` at term `"#foo"` and
`c5WitnessArticle`. -/
theorem claim_c5_witness :
    (startsWithCh "#foo" '#' = true
        ∧ containsSub (jsToLower c5WitnessArticle.title) (jsToLower "#foo") = false
        ∧ ∀ tag ∈ c5WitnessArticle.tags,
            containsSub (jsToLower tag) (jsToLower "#foo") = false)
      ∧ matchesSearch "#foo" c5WitnessArticle
          = c5WitnessArticle.tags.any
              (fun tag => jsToLower tag == jsToLower (sliceFrom1 "#foo")) :=
  ⟨⟨by decide, by decide, by decide⟩,
    claim_c5_amended "#foo" c5WitnessArticle (by decide) (by decide) (by decide)⟩

theorem revert_optimistic (path : String) (c : Bool) (arts : List Article)
    (hpre : ∀ a ∈ arts, a.path = path → a.read = !c) :
    revertUpdate path c (optimisticUpdate path c arts) = arts := by
  show ((arts.map _).map _) = arts
  rw [List.map_map]
  apply map_self_of
  intro a ha
  by_cases hp : (a.path == path) = true
  · have hpath : a.path = path := eq_of_beq hp
    have hread : a.read = !c := hpre a ha hpath
    simp only [Function.comp_apply, hp, if_true]
    rw [← hread]
  · have hnp : a.path ≠ path := by
      intro hh
      exact hp (by rw [hh]; exact beq_self_eq_true path)
    simp [Function.comp_apply, hnp]

theorem lookupFm_setFmKey_ne (fm : Frontmatter) (prop k : String) (v : FmValue)
    (h : k ≠ prop) : lookupFm (setFmKey fm prop v) k = lookupFm fm k := by
  induction fm with
  | nil =>
    have hne : (prop == k) = false := by
      cases hpk : prop == k
      · rfl
      · exact absurd (eq_of_beq hpk).symm h
    simp [setFmKey, lookupFm, hne]
  | cons kv rest ih =>
    obtain ⟨k', v'⟩ := kv
    by_cases hk : (k' == prop) = true
    · have hk'k : (k' == k) = false := by
        cases hkk : k' == k
        · rfl
        · exact absurd ((eq_of_beq hkk).symm.trans (eq_of_beq hk)) h
      simp [setFmKey, lookupFm, hk, hk'k]
    · have hk' : (k' == prop) = false := by
        cases hkk : k' == prop
        · rfl
        · exact absurd hkk (by simpa using hk)
      by_cases hkk : (k' == k) = true
      · simp [setFmKey, lookupFm, hk', hkk]
      · have hkkf : (k' == k) = false := by
          cases hx : k' == k
          · rfl
          · exact absurd hx (by simpa using hkk)
        simp [setFmKey, lookupFm, hk', hkkf, ih]

/-- Claim C8: The read-state toggle applies the new value optimistically to
the in-memory record first and then writes it through: without a
front-matter block it prepends a synthesized block holding only the read
property to the existing content, otherwise it sets only the read
property and leaves every other front-matter field and the body
unchanged; and when the write throws, the revert restores exactly the
pre-toggle catalog (given that the record's read flag was the checkbox's
previous value, the negation of the value being written). -/
theorem claim_c8 (prop path : String) (isChecked : Bool)
    (articles : List Article) (doc : Doc)
    (hpre : ∀ a ∈ articles, a.path = path → a.read = !isChecked) :
    toggleRead prop path isChecked articles doc true = (articles, doc)
      ∧ (toggleRead prop path isChecked articles doc false).1
          = optimisticUpdate path isChecked articles
      ∧ (doc.frontmatter = none →
          (toggleRead prop path isChecked articles doc false).2
            = { doc with content := "---\n" ++ prop ++ ": "
                ++ (if isChecked then "true" else "false") ++ "\n---\n" ++ doc.content })
      ∧ (∀ fm, doc.frontmatter = some fm →
          (toggleRead prop path isChecked articles doc false).2.content = doc.content
            ∧ (toggleRead prop path isChecked articles doc false).2.frontmatter
                = some (setFmKey fm prop (.boolean isChecked))
            ∧ ∀ k, k ≠ prop →
                lookupFm (setFmKey fm prop (.boolean isChecked)) k = lookupFm fm k) := by
  obtain ⟨fmOpt, content⟩ := doc
  refine ⟨?_, rfl, ?_, ?_⟩
  · show (revertUpdate path isChecked (optimisticUpdate path isChecked articles), _) = _
    rw [revert_optimistic path isChecked articles hpre]
  · intro h
    cases h
    rfl
  · intro fm h
    cases h
    exact ⟨rfl, rfl, fun k hk => lookupFm_setFmKey_ne fm prop k _ hk⟩

/-- A concrete read article at path `"p"`. -/
def c8Article : Article :=
  { title := "t", urls := [("source", .scalar (.str "https://a.com"))], path := "p"
    date := 0, tags := [], frontmatterTags := [], contentTags := []
    basename := "t", content := "", read := true }

/-- Concrete instantiation of `claim_c8`: unchecking the read article
`c8Article` (writing `false`) against a document whose front matter holds
a title and the read flag. -/
theorem claim_c8_witness :
    (∀ a ∈ [c8Article], a.path = "p" → a.read = !false)
      ∧ toggleRead "read" "p" false [c8Article]
          { frontmatter := some [("title", .str "x"), ("read", .boolean true)]
            content := "body" } true
        = ([c8Article],
            { frontmatter := some [("title", .str "x"), ("read", .boolean true)]
              content := "body" }) :=
  ⟨by decide,
    (claim_c8 "read" "p" false [c8Article]
      { frontmatter := some [("title", .str "x"), ("read", .boolean true)]
        content := "body" } (by decide)).1⟩

theorem segmentsEq_iff (ds ps : List String) :
    segmentsEq ds ps = true ↔ (ps.map jsToLower).take ds.length = ds.map jsToLower := by
  induction ds generalizing ps with
  | nil => simp [segmentsEq]
  | cons d ds ih =>
    cases ps with
    | nil => simp [segmentsEq]
    | cons p ps =>
      show (jsToLower d == jsToLower p && segmentsEq ds ps) = true ↔
          jsToLower p :: (ps.map jsToLower).take ds.length = jsToLower d :: ds.map jsToLower
      rw [Bool.and_eq_true, beq_iff_eq, ih]
      simp only [List.cons.injEq]
      constructor
      · rintro ⟨h1, h2⟩; exact ⟨h1.symm, h2⟩
      · rintro ⟨h1, h2⟩; exact ⟨h1.symm, h2⟩

theorem ruleCore_iff (ds ps : List String) :
    (if ps.length < ds.length then false
      else segmentsEq ds ps && (ds.length == ps.length - 1 || ds.length == ps.length))
        = true
      ↔ ((ps.map jsToLower).take ds.length = ds.map jsToLower
          ∧ (ps.length = ds.length ∨ ps.length = ds.length + 1)) := by
  by_cases hlt : ps.length < ds.length
  · rw [if_pos hlt]
    constructor
    · intro h; exact absurd h (by simp)
    · rintro ⟨h1, h2⟩
      exfalso
      omega
  · rw [if_neg hlt]
    rw [Bool.and_eq_true, Bool.or_eq_true, segmentsEq_iff]
    simp only [beq_iff_eq]
    constructor
    · rintro ⟨h1, h2⟩
      exact ⟨h1, by omega⟩
    · rintro ⟨h1, h2⟩
      exact ⟨h1, by omega⟩

theorem ruleMatches_iff (dir filePath : String) :
    ruleMatches dir filePath = true ↔ ruleMatchesSpec dir filePath :=
  ruleCore_iff (jsSplit (stripOneTrailingSlash (slashNormalize dir)) '/')
    (jsSplit (slashNormalize filePath) '/')

/-- Claim C2: `isPathIgnored` returns true iff some rule, after
backslash-to-slash normalization and stripping one trailing slash,
matches the path's leading segments case-insensitively with the path's
segment count equal to the rule's or exceeding it by exactly one; and
consequently a path two or more segments deeper than a rule's directory
is never matched by that rule. -/
theorem claim_c2 (ignoredDirectories : List String) (filePath : String) :
    (isPathIgnored ignoredDirectories filePath = true
        ↔ ∃ dir ∈ ignoredDirectories, ruleMatchesSpec dir filePath)
      ∧ ∀ dir : String,
          (jsSplit (stripOneTrailingSlash (slashNormalize dir)) '/').length + 2
              ≤ (jsSplit (slashNormalize filePath) '/').length →
          ruleMatches dir filePath = false := by
  constructor
  · show (ignoredDirectories.any fun dir => ruleMatches dir filePath) = true ↔ _
    rw [List.any_eq_true]
    constructor
    · rintro ⟨dir, hmem, hmatch⟩
      exact ⟨dir, hmem, (ruleMatches_iff dir filePath).mp hmatch⟩
    · rintro ⟨dir, hmem, hspec⟩
      exact ⟨dir, hmem, (ruleMatches_iff dir filePath).mpr hspec⟩
  · intro dir hlen
    cases hr : ruleMatches dir filePath with
    | false => rfl
    | true =>
      obtain ⟨h1, h2⟩ := (ruleMatches_iff dir filePath).mp hr
      exfalso
      omega

/-- Concrete instantiation of `claim_c2`: the rule `work/expenses` does
not match the path `work/expenses/2024`, which lies two segments below
it (the parent directory of `work/expenses/2024/q1.md`). -/
theorem claim_c2_witness :
    ((jsSplit (stripOneTrailingSlash (slashNormalize "work/expenses")) '/').length + 2
        ≤ (jsSplit (slashNormalize "work/expenses/2024/q1") '/').length)
      ∧ ruleMatches "work/expenses" "work/expenses/2024/q1" = false :=
  ⟨by decide,
    (claim_c2 [] "work/expenses/2024/q1").2 "work/expenses" (by decide)⟩

theorem objSet_ne_nil (obj : List (String × UrlEntry)) (k : String) (v : UrlEntry) :
    objSet obj k v ≠ [] := by
  cases obj with
  | nil => simp [objSet]
  | cons kv rest =>
    obtain ⟨k', v'⟩ := kv
    by_cases h : (k' == k) = true <;> simp [objSet, h]

theorem collectStep_not_keeps (fm : Frontmatter) (urls : List (String × UrlEntry))
    (p : String) (h : keepsProp fm p = false) : collectStep fm urls p = urls := by
  rw [keepsProp] at h
  cases hl : lookupFm fm p with
  | none => simp [collectStep, hl]
  | some v =>
    rw [hl] at h
    dsimp only at h
    cases v with
    | str s =>
      have htr : truthy (FmValue.str s) = false := by
        cases ht : truthy (FmValue.str s)
        · rfl
        · rw [ht] at h; simp at h
      simp [collectStep, hl, htr]
    | boolean b =>
      have htr : truthy (FmValue.boolean b) = false := by
        cases ht : truthy (FmValue.boolean b)
        · rfl
        · rw [ht] at h; simp at h
      simp [collectStep, hl, htr]
    | arr xs =>
      dsimp only [truthy, Bool.true_and] at h
      have hnil : filterUrlItems xs = [] := by
        cases hfi : filterUrlItems xs with
        | nil => rfl
        | cons y ys => rw [hfi] at h; simp at h
      simp [collectStep, hl, truthy, hnil]

theorem collectStep_keeps_ne_nil (fm : Frontmatter) (urls : List (String × UrlEntry))
    (p : String) (h : keepsProp fm p = true) : collectStep fm urls p ≠ [] := by
  rw [keepsProp] at h
  cases hl : lookupFm fm p with
  | none => rw [hl] at h; simp at h
  | some v =>
    rw [hl] at h
    dsimp only at h
    cases v with
    | str s =>
      have htr : truthy (FmValue.str s) = true := by
        cases ht : truthy (FmValue.str s)
        · rw [ht] at h; simp at h
        · rfl
      simp only [collectStep, hl, htr, if_true]
      exact objSet_ne_nil _ _ _
    | boolean b =>
      have htr : truthy (FmValue.boolean b) = true := by
        cases ht : truthy (FmValue.boolean b)
        · rw [ht] at h; simp at h
        · rfl
      simp only [collectStep, hl, htr, if_true]
      exact objSet_ne_nil _ _ _
    | arr xs =>
      dsimp only [truthy, Bool.true_and] at h
      have hne : filterUrlItems xs ≠ [] := by
        intro hn
        rw [hn] at h
        simp at h
      have hlen : 0 < (filterUrlItems xs).length := List.length_pos.mpr hne
      simp only [collectStep, hl, truthy, if_true]
      simp only [show ((filterUrlItems xs).length > 0) = True from eq_true hlen, if_true]
      exact objSet_ne_nil _ _ _

theorem foldl_collectStep_nil_iff (fm : Frontmatter) (props : List String)
    (acc : List (String × UrlEntry)) :
    props.foldl (collectStep fm) acc = []
      ↔ acc = [] ∧ ∀ p ∈ props, keepsProp fm p = false := by
  induction props generalizing acc with
  | nil => simp
  | cons p ps ih =>
    show ps.foldl (collectStep fm) (collectStep fm acc p) = [] ↔ _
    rw [ih]
    constructor
    · rintro ⟨hstep, hall⟩
      have hkf : keepsProp fm p = false := by
        cases hk : keepsProp fm p
        · rfl
        · exact absurd hstep (collectStep_keeps_ne_nil fm acc p hk)
      rw [collectStep_not_keeps fm acc p hkf] at hstep
      refine ⟨hstep, fun q hq => ?_⟩
      rcases List.mem_cons.mp hq with rfl | hq'
      · exact hkf
      · exact hall q hq'
    · rintro ⟨hacc, hall⟩
      have hkf := hall p (List.mem_cons_self p ps)
      rw [collectStep_not_keeps fm acc p hkf, hacc]
      exact ⟨rfl, fun q hq => hall q (List.mem_cons_of_mem p hq)⟩

theorem collectUrls_ne_nil_iff (fm : Frontmatter) (props : List String) :
    collectUrls fm props ≠ [] ↔ ∃ p ∈ props, keepsProp fm p = true := by
  rw [show collectUrls fm props = props.foldl (collectStep fm) [] from rfl]
  constructor
  · intro hne
    by_contra hno
    push_neg at hno
    refine hne ((foldl_collectStep_nil_iff fm props []).mpr ⟨rfl, fun p hp => ?_⟩)
    cases hk : keepsProp fm p
    · rfl
    · exact absurd hk (hno p hp)
  · rintro ⟨p, hp, hk⟩ hnil
    have := ((foldl_collectStep_nil_iff fm props []).mp hnil).2 p hp
    rw [this] at hk
    exact Bool.noConfusion hk

theorem buildArticle_some_iff (s : Settings) (f : VaultFile) :
    (∃ b, buildArticle s f = some b)
      ↔ isPathIgnored s.ignoredDirectories f.parentPath = false
          ∧ ∃ fm, f.frontmatter = some fm
              ∧ collectUrls fm (parsePropertyNames s.sourcePropertyName) ≠ []
              ∧ processFrontmatterTags s.includeFrontmatterTags (lookupFm fm "tags")
                  ≠ none := by
  cases hig : isPathIgnored s.ignoredDirectories f.parentPath with
  | true =>
    simp only [buildArticle, hig, if_true]
    constructor
    · rintro ⟨b, hb⟩
      exact absurd hb (by simp)
    · rintro ⟨hfalse, _⟩
      exact Bool.noConfusion hfalse
  | false =>
    simp only [buildArticle, hig, Bool.false_eq_true, if_false, true_and]
    cases hfm : f.frontmatter with
    | none =>
      dsimp only
      constructor
      · rintro ⟨b, hb⟩
        exact absurd hb (by simp)
      · rintro ⟨fm, hfm', _⟩
        exact Option.noConfusion hfm'
    | some fm =>
      dsimp only
      cases hempty : (collectUrls fm (parsePropertyNames s.sourcePropertyName)).isEmpty with
      | true =>
        have hnil : collectUrls fm (parsePropertyNames s.sourcePropertyName) = [] := by
          cases hc : collectUrls fm (parsePropertyNames s.sourcePropertyName) with
          | nil => rfl
          | cons y ys => rw [hc] at hempty; exact Bool.noConfusion hempty
        constructor
        · rintro ⟨b, hb⟩
          simp [hempty] at hb
        · rintro ⟨fm', hfm', hurls, _⟩
          obtain rfl : fm = fm' := Option.some.inj hfm'
          exact absurd hnil hurls
      | false =>
        have hne : collectUrls fm (parsePropertyNames s.sourcePropertyName) ≠ [] := by
          intro hnil
          rw [hnil] at hempty
          exact Bool.noConfusion hempty
        cases hpft : processFrontmatterTags s.includeFrontmatterTags (lookupFm fm "tags") with
        | none =>
          constructor
          · rintro ⟨b, hb⟩
            simp [hempty, hpft] at hb
          · rintro ⟨fm', hfm', hurls, hpft'⟩
            obtain rfl : fm = fm' := Option.some.inj hfm'
            exact absurd hpft hpft'
        | some tags =>
          constructor
          · rintro ⟨b, hb⟩
            refine ⟨fm, rfl, hne, ?_⟩
            rw [hpft]
            exact fun hx => Option.noConfusion hx
          · intro _
            rw [← Option.isSome_iff_exists]
            simp [hempty, hpft]

/-- Settings and file exhibiting the whitespace-only scalar source value. -/
def c1Settings : Settings :=
  { sourcePropertyName := "source", readPropertyName := "read"
    includeFrontmatterTags := true, ignoredDirectories := [] }

/-- A markdown file whose only configured source value is the
whitespace-only string `"   "`. -/
def c1File : VaultFile :=
  { basename := "n", path := "d/n.md", parentPath := "d", ctime := 5
    frontmatter := some [("source", .str "   ")], metadataTags := none
    content := "body" }

/-- Claim C1, counterexample: A document whose only configured source value
is the whitespace-only scalar string `"   "` (blank after trimming) still
produces a catalog record: JS truthiness does not trim scalar values, so
the claimed "no record for blank/whitespace-only scalar" fails. -/
theorem claim_c1_counterexample :
    jsTrim "   " = "" ∧ (loadArticles c1Settings [c1File]).length = 1 := by
  decide

/-- Claim C1, amended: A refresh pass produces a record for a document iff
the document is not path-excluded, has a front-matter block, at least one
configured source property holds a truthy value that is either a
non-array (kept untrimmed, so whitespace-only scalars count) or an array
retaining a string entry non-blank after trimming, and tag extraction
does not throw; and a record enters the pass's output exactly through
`buildArticle` on some input file. -/
theorem claim_c1_amended (s : Settings) (f : VaultFile) (fm : Frontmatter)
    (files : List VaultFile) (a : Article) :
    ((∃ b, buildArticle s f = some b)
        ↔ isPathIgnored s.ignoredDirectories f.parentPath = false
            ∧ ∃ fm', f.frontmatter = some fm'
                ∧ collectUrls fm' (parsePropertyNames s.sourcePropertyName) ≠ []
                ∧ processFrontmatterTags s.includeFrontmatterTags (lookupFm fm' "tags")
                    ≠ none)
      ∧ (collectUrls fm (parsePropertyNames s.sourcePropertyName) ≠ []
          ↔ ∃ p ∈ parsePropertyNames s.sourcePropertyName, keepsProp fm p = true)
      ∧ (a ∈ loadArticles s files ↔ ∃ g ∈ files, buildArticle s g = some a) :=
  ⟨buildArticle_some_iff s f,
    collectUrls_ne_nil_iff fm (parsePropertyNames s.sourcePropertyName),
    List.mem_filterMap⟩
